import Mathlib

/-!
Verification of the detection pre and post processing pipeline and the
job polling loops of the ml-edge-getting-started notebooks.

The notebooks load the Processor class (pre_process and post_process)
from models/01_YoloV5/01_Pytorch/processing.py; that file is not part of
the snapshot, only its call sites are, so the Processor operations below
are modelled from the specification. The classifier inline cells (square
padding, resize, normalization) and the polling loops are present in the
notebooks and are embedded from that source. All floating-point values
are modelled as rationals.
-/

/-- Modelled from the spec: the error taxonomy of the missing
processing.py Processor; InvalidInput is the only error class. -/
inductive PPError
  | invalidInput
deriving DecidableEq, Repr

/-- A final detection: box corners in original-image pixel coordinates,
final confidence, and predicted class id. -/
structure Detection where
  xMin : ℚ
  yMin : ℚ
  xMax : ℚ
  yMax : ℚ
  conf : ℚ
  classId : ℕ
deriving DecidableEq, Repr

instance {ε α : Type _} [DecidableEq ε] [DecidableEq α] : DecidableEq (Except ε α)
  | .ok a, .ok b =>
    if h : a = b then .isTrue (congrArg Except.ok h)
    else .isFalse (fun hc => h (Except.ok.inj hc))
  | .error a, .error b =>
    if h : a = b then .isTrue (congrArg Except.error h)
    else .isFalse (fun hc => h (Except.error.inj hc))
  | .ok _, .error _ => .isFalse (fun hc => Except.noConfusion hc)
  | .error _, .ok _ => .isFalse (fun hc => Except.noConfusion hc)

/-- First index and value of the maximum of a list of class scores,
scanning forward from index j with current best (bi, bv); ties keep the
earlier index, matching argmax semantics. -/
def bestClassAux (j : ℕ) (bi : ℕ) (bv : ℚ) : List ℚ → ℕ × ℚ
  | [] => (bi, bv)
  | s :: rest => if bv < s then bestClassAux (j + 1) j s rest else bestClassAux (j + 1) bi bv rest

/-- Clamp a coordinate into the interval from lo to hi. -/
def clamp (x lo hi : ℚ) : ℚ := max lo (min x hi)

/-- Modelled from the spec: one candidate row of the raw detection
tensor, laid out as center x, center y, width, height, objectness, then
per-class scores, is turned into a Detection: final confidence is
objectness times the best class score, corners are obtained from the
center form, scaled per axis by original dimension over resized
dimension, and clipped to the original image bounds. Rows too short for
this layout yield none. -/
def detOfRow (origH origW S : ℚ) (row : List ℚ) : Option Detection :=
  match row with
  | cx :: cy :: w :: h :: obj :: s0 :: rest =>
      let sx := origW / S
      let sy := origH / S
      let bc := bestClassAux 1 0 s0 rest
      some { xMin := clamp ((cx - w / 2) * sx) 0 origW
             yMin := clamp ((cy - h / 2) * sy) 0 origH
             xMax := clamp ((cx + w / 2) * sx) 0 origW
             yMax := clamp ((cy + h / 2) * sy) 0 origH
             conf := obj * bc.2
             classId := bc.1 }
  | _ => none

/-- Modelled from the spec: all candidate detections of the raw tensor,
before confidence filtering. -/
def rawDetections (origH origW S : ℚ) (raw : List (List ℚ)) : List Detection :=
  raw.filterMap (detOfRow origH origW S)

/-- Modelled from the spec: candidates whose final confidence clears the
configured threshold. -/
def keptDetections (threshold origH origW S : ℚ) (raw : List (List ℚ)) : List Detection :=
  (rawDetections origH origW S raw).filter (fun d => decide (threshold ≤ d.conf))

/-- Area of a detection box, zero when degenerate. -/
def boxArea (d : Detection) : ℚ :=
  max 0 (d.xMax - d.xMin) * max 0 (d.yMax - d.yMin)

/-- Overlap area of two detection boxes. -/
def interArea (a b : Detection) : ℚ :=
  max 0 (min a.xMax b.xMax - max a.xMin b.xMin) *
    max 0 (min a.yMax b.yMax - max a.yMin b.yMin)

/-- Intersection-over-Union: ratio of overlapping area to union area. -/
def iou (a b : Detection) : ℚ :=
  interArea a b / (boxArea a + boxArea b - interArea a b)

/-- Insert a detection into a confidence-descending list, placing it
before the first element whose confidence does not exceed it; the
inserted detection therefore precedes every equal-confidence element
already in the list. -/
def insertDesc (d : Detection) : List Detection → List Detection
  | [] => [d]
  | e :: rest => if e.conf ≤ d.conf then d :: e :: rest else e :: insertDesc d rest

/-- Stable sort by descending confidence by right-fold insertion: each
candidate is inserted in front of the equal-confidence candidates that
follow it in the original order, so ties keep original candidate
order. -/
def sortByConfDesc (l : List Detection) : List Detection :=
  l.foldr insertDesc []

/-- Detections of a given class id, in original order. -/
def groupOf (cid : ℕ) (l : List Detection) : List Detection :=
  l.filter (fun d => d.classId == cid)

/-- The distinct class ids present, in order of first appearance. -/
def classIds (l : List Detection) : List ℕ :=
  (l.map (fun d => d.classId)).dedup

/-- Fuel-indexed greedy non-maximum suppression: emit the head and
discard the remaining candidates whose IoU with it exceeds the
threshold; the fuel bounds the recursion depth. -/
def nmsFuel (thr : ℚ) : ℕ → List Detection → List Detection
  | 0, _ => []
  | _, [] => []
  | fuel + 1, d :: rest =>
      d :: nmsFuel thr fuel (rest.filter (fun e => decide (iou d e ≤ thr)))

/-- Modelled from the spec: greedy non-maximum suppression on a list
already sorted by descending confidence; repeatedly emit the head and
discard the remaining candidates whose IoU with it exceeds the
threshold. The length of the list is enough fuel. -/
def nms (thr : ℚ) (l : List Detection) : List Detection :=
  nmsFuel thr l.length l

/-- Modelled from the spec: group survivors by class id and run greedy
non-maximum suppression within each group, concatenating the per-group
results. -/
def nmsAll (thr : ℚ) (l : List Detection) : List Detection :=
  (classIds l).flatMap (fun cid => nms thr (sortByConfDesc (groupOf cid l)))

/-- Modelled from the spec: the raw tensor shape is consistent with the
expected detection layout when there is at least one class and every row
has numClasses plus five entries. -/
def shapeOk (nc : ℕ) (raw : List (List ℚ)) : Bool :=
  decide (0 < nc) && raw.all (fun row => row.length == nc + 5)

/-- Modelled from the spec: post_process of the missing processing.py
Processor. Validates both thresholds and the raw tensor shape, then
filters candidates by final confidence, converts the survivors to
clipped original-image corner boxes, and applies per-class greedy
non-maximum suppression. -/
def post_process (raw : List (List ℚ)) (origH origW S : ℚ) (nc : ℕ)
    (threshold iouThr : ℚ) : Except PPError (List Detection) :=
  if 0 ≤ threshold ∧ threshold ≤ 1 then
    if 0 ≤ iouThr ∧ iouThr ≤ 1 then
      if shapeOk nc raw then
        .ok (nmsAll iouThr (keptDetections threshold origH origW S raw))
      else .error .invalidInput
    else .error .invalidInput
  else .error .invalidInput

/-- An image: height by width by channels array of samples, origin
top-left, row-major; sample values are bytes modelled as rationals. -/
structure Image where
  h : ℕ
  w : ℕ
  c : ℕ
  pix : ℕ → ℕ → ℕ → ℚ

/-- A four-dimensional tensor in batch, channel, height, width layout. -/
structure Tensor4 where
  n : ℕ
  c : ℕ
  h : ℕ
  w : ℕ
  val : ℕ → ℕ → ℕ → ℕ → ℚ

/-- Per-channel mean of the classifier normalization, from the
classifier inline pre-processing cell. -/
def meanOf : ℕ → ℚ
  | 0 => 485 / 1000
  | 1 => 456 / 1000
  | 2 => 406 / 1000
  | _ => 0

/-- Per-channel standard deviation of the classifier normalization, from
the classifier inline pre-processing cell. -/
def stdOf : ℕ → ℚ
  | 0 => 229 / 1000
  | 1 => 224 / 1000
  | 2 => 225 / 1000
  | _ => 1

/-- Resize an image to a square of side S by index sampling; every
output sample is a sample of the input image. -/
def resizeImg (img : Image) (S : ℕ) : Image :=
  { h := S, w := S, c := img.c
    pix := fun y x ch => img.pix (y * img.h / S) (x * img.w / S) ch }

/-- Classifier-style per-channel normalization, applied when the
normalize flag is set: value minus channel mean, over channel standard
deviation. -/
def normChannel (normalize : Bool) (ch : ℕ) (v : ℚ) : ℚ :=
  if normalize then (v - meanOf ch) / stdOf ch else v

/-- The tensor produced from a validated image: resize to S by S, divide
byte values by 255, optionally normalize per channel, reorder from
height-width-channel to channel-first, and add a leading batch
dimension. -/
def preTensor (img : Image) (S : ℕ) (normalize : Bool) : Tensor4 :=
  { n := 1, c := img.c, h := S, w := S
    val := fun _ ch y x => normChannel normalize ch ((resizeImg img S).pix y x ch / 255) }

/-- Modelled from the spec: pre_process of the missing processing.py
Processor. Fails with InvalidInput on zero height, zero width or an
unsupported channel count, and otherwise returns the model-ready
tensor. -/
def pre_process (img : Image) (S : ℕ) (normalize : Bool) : Except PPError Tensor4 :=
  if img.h = 0 ∨ img.w = 0 ∨ img.c ≠ 3 then .error .invalidInput
  else .ok (preTensor img S normalize)

/-- The classifier square-padding cell: a non-square image is replaced
by a square canvas of side max height width, zero filled, with the
original pixels copied into the top-left region; a square image passes
through unchanged. -/
def makeSquare (img : Image) : Image :=
  if img.w = img.h then img
  else
    { h := max img.h img.w, w := max img.h img.w, c := img.c
      pix := fun y x ch => if y < img.h ∧ x < img.w then img.pix y x ch else 0 }

/-- Job statuses reported by the managed compilation and packaging
services. -/
inductive JobStatus
  | STARTING
  | INPROGRESS
  | COMPLETED
  | FAILED
  | STOPPED
deriving DecidableEq, Repr

/-- A status keeps the loop polling exactly when it is STARTING or
INPROGRESS. -/
def isRunning : JobStatus → Bool
  | .STARTING => true
  | .INPROGRESS => true
  | _ => false

/-- The polling loop of the notebooks: poll the describe API, print and
continue after a five second sleep while the status is STARTING or
INPROGRESS, and break at the first other status. The loop is indexed by
fuel; it returns the poll index at exit, the total seconds slept, and
the terminal status. -/
def pollLoop (describe : ℕ → JobStatus) : ℕ → ℕ → ℕ → Option (ℕ × ℕ × JobStatus)
  | 0, _, _ => none
  | fuel + 1, i, t =>
    if isRunning (describe i) then pollLoop describe fuel (i + 1) (t + 5)
    else some (i, t, describe i)

theorem mem_of_mem_insertDesc {d x : Detection} {l : List Detection}
    (h : x ∈ insertDesc d l) : x = d ∨ x ∈ l := by
  induction l with
  | nil =>
    simp only [insertDesc, List.mem_singleton] at h
    exact Or.inl h
  | cons e rest ih =>
    simp only [insertDesc] at h
    split at h
    · exact List.mem_cons.1 h
    · rcases List.mem_cons.1 h with h1 | h1
      · exact Or.inr (List.mem_cons.2 (Or.inl h1))
      · rcases ih h1 with h2 | h2
        · exact Or.inl h2
        · exact Or.inr (List.mem_cons_of_mem _ h2)

theorem mem_of_mem_sortByConfDesc {x : Detection} {l : List Detection}
    (h : x ∈ sortByConfDesc l) : x ∈ l := by
  induction l with
  | nil => simp [sortByConfDesc] at h
  | cons e rest ih =>
    simp only [sortByConfDesc, List.foldr_cons] at h
    rcases mem_of_mem_insertDesc h with h | h
    · simp [h]
    · exact List.mem_cons_of_mem _ (ih h)

theorem mem_of_mem_nmsFuel {thr : ℚ} {x : Detection} :
    ∀ {fuel : ℕ} {l : List Detection}, x ∈ nmsFuel thr fuel l → x ∈ l := by
  intro fuel
  induction fuel with
  | zero =>
    intro l h
    simp [nmsFuel] at h
  | succ n ih =>
    intro l h
    cases l with
    | nil => simp [nmsFuel] at h
    | cons d rest =>
      simp only [nmsFuel] at h
      rcases List.mem_cons.1 h with h1 | h1
      · exact List.mem_cons.2 (Or.inl h1)
      · exact List.mem_cons_of_mem _ (List.mem_of_mem_filter (ih h1))

theorem mem_of_mem_nms {thr : ℚ} {x : Detection} {l : List Detection}
    (h : x ∈ nms thr l) : x ∈ l :=
  mem_of_mem_nmsFuel h

theorem nmsFuel_pairwise (thr : ℚ) :
    ∀ (fuel : ℕ) (l : List Detection),
      List.Pairwise (fun a b => iou a b ≤ thr) (nmsFuel thr fuel l) := by
  intro fuel
  induction fuel with
  | zero => intro l; simp [nmsFuel]
  | succ n ih =>
    intro l
    cases l with
    | nil => simp [nmsFuel]
    | cons d rest =>
      simp only [nmsFuel]
      refine List.Pairwise.cons ?_ (ih _)
      intro e he
      have := List.mem_filter.1 (mem_of_mem_nmsFuel he)
      exact of_decide_eq_true this.2

theorem nms_pairwise (thr : ℚ) (l : List Detection) :
    List.Pairwise (fun a b => iou a b ≤ thr) (nms thr l) :=
  nmsFuel_pairwise thr l.length l

theorem classId_of_mem_groupOf {cid : ℕ} {x : Detection} {l : List Detection}
    (h : x ∈ groupOf cid l) : x.classId = cid := by
  have := List.mem_filter.1 h
  exact eq_of_beq this.2

theorem mem_of_mem_groupOf {cid : ℕ} {x : Detection} {l : List Detection}
    (h : x ∈ groupOf cid l) : x ∈ l :=
  List.mem_of_mem_filter h

theorem pairwise_flatMap {α β : Type _} {R : β → β → Prop} {f : α → List β} {l : List α}
    (h1 : ∀ a ∈ l, List.Pairwise R (f a))
    (h2 : List.Pairwise (fun a b => ∀ x ∈ f a, ∀ y ∈ f b, R x y) l) :
    List.Pairwise R (l.flatMap f) := by
  induction l with
  | nil => simp
  | cons a rest ih =>
    rw [List.flatMap_cons, List.pairwise_append]
    rcases List.pairwise_cons.1 h2 with ⟨ha, h2t⟩
    refine ⟨h1 a (List.mem_cons_self a rest), ih (fun b hb => h1 b (List.mem_cons_of_mem _ hb)) h2t, ?_⟩
    intro x hx y hy
    obtain ⟨b, hb, hyb⟩ := List.mem_flatMap.1 hy
    exact ha b hb x hx y hyb

theorem classId_of_mem_nmsGroup {thr : ℚ} {cid : ℕ} {x : Detection} {l : List Detection}
    (h : x ∈ nms thr (sortByConfDesc (groupOf cid l))) : x.classId = cid :=
  classId_of_mem_groupOf (mem_of_mem_sortByConfDesc (mem_of_mem_nms h))

theorem nmsAll_pairwise (thr : ℚ) (l : List Detection) :
    List.Pairwise (fun a b => a.classId = b.classId → iou a b ≤ thr) (nmsAll thr l) := by
  refine pairwise_flatMap ?_ ?_
  · intro cid _
    have hp := nms_pairwise thr (sortByConfDesc (groupOf cid l))
    refine List.Pairwise.imp ?_ hp
    intro a b hab
    exact fun _ => hab
  · have hnd : (classIds l).Nodup := List.nodup_dedup _
    refine hnd.imp ?_
    intro c1 c2 hne x hx y hy hcls
    exact absurd ((classId_of_mem_nmsGroup hx).symm.trans ((hcls.trans (classId_of_mem_nmsGroup hy))))
      hne

theorem mem_of_mem_nmsAll {thr : ℚ} {x : Detection} {l : List Detection}
    (h : x ∈ nmsAll thr l) : x ∈ l := by
  obtain ⟨cid, _, hx⟩ := List.mem_flatMap.1 h
  exact mem_of_mem_groupOf (mem_of_mem_sortByConfDesc (mem_of_mem_nms hx))

theorem post_process_ok {raw : List (List ℚ)} {origH origW S : ℚ} {nc : ℕ}
    {threshold iouThr : ℚ} {out : List Detection}
    (h : post_process raw origH origW S nc threshold iouThr = .ok out) :
    out = nmsAll iouThr (keptDetections threshold origH origW S raw) := by
  unfold post_process at h
  split at h
  · split at h
    · split at h
      · exact (Except.ok.inj h).symm
      · exact Except.noConfusion h
    · exact Except.noConfusion h
  · exact Except.noConfusion h

theorem conf_of_mem_kept {threshold origH origW S : ℚ} {raw : List (List ℚ)}
    {d : Detection} (h : d ∈ keptDetections threshold origH origW S raw) :
    threshold ≤ d.conf :=
  of_decide_eq_true (List.mem_filter.1 h).2

theorem row_of_mem_kept {threshold origH origW S : ℚ} {raw : List (List ℚ)}
    {d : Detection} (h : d ∈ keptDetections threshold origH origW S raw) :
    ∃ row ∈ raw, detOfRow origH origW S row = some d := by
  have hm : d ∈ rawDetections origH origW S raw := List.mem_of_mem_filter h
  exact List.mem_filterMap.1 hm

theorem insertDesc_sorted {d : Detection} {l : List Detection}
    (hl : List.Pairwise (fun a b => b.conf ≤ a.conf) l) :
    List.Pairwise (fun a b => b.conf ≤ a.conf) (insertDesc d l) := by
  induction l with
  | nil => simp [insertDesc]
  | cons e rest ih =>
    rcases List.pairwise_cons.1 hl with ⟨he, hrest⟩
    simp only [insertDesc]
    by_cases hcond : e.conf ≤ d.conf
    · rw [if_pos hcond]
      refine List.pairwise_cons.2 ⟨?_, hl⟩
      intro x hx
      rcases List.mem_cons.1 hx with rfl | hx2
      · exact hcond
      · exact le_trans (he x hx2) hcond
    · rw [if_neg hcond]
      refine List.pairwise_cons.2 ⟨?_, ih hrest⟩
      intro x hx
      rcases mem_of_mem_insertDesc hx with rfl | hx2
      · exact le_of_not_le hcond
      · exact he x hx2

theorem sortByConfDesc_sorted (l : List Detection) :
    List.Pairwise (fun a b => b.conf ≤ a.conf) (sortByConfDesc l) := by
  induction l with
  | nil => simp [sortByConfDesc]
  | cons e rest ih =>
    simp only [sortByConfDesc, List.foldr_cons] at ih ⊢
    exact insertDesc_sorted ih

theorem filter_insertDesc (c : ℚ) (d : Detection) (l : List Detection) :
    (insertDesc d l).filter (fun e => decide (e.conf = c)) =
      if d.conf = c then d :: l.filter (fun e => decide (e.conf = c))
      else l.filter (fun e => decide (e.conf = c)) := by
  induction l with
  | nil =>
    by_cases hd : d.conf = c
    · simp [insertDesc, hd]
    · simp [insertDesc, hd]
  | cons e rest ih =>
    simp only [insertDesc]
    by_cases hcond : e.conf ≤ d.conf
    · rw [if_pos hcond]
      by_cases hd : d.conf = c
      · simp [List.filter_cons, hd]
      · simp [List.filter_cons, hd]
    · rw [if_neg hcond]
      by_cases he : e.conf = c
      · by_cases hd : d.conf = c
        · exact absurd (he.trans hd.symm).le hcond
        · simp [List.filter_cons, he, hd, ih]
      · simp [List.filter_cons, he, ih]

theorem sortByConfDesc_stable (l : List Detection) (c : ℚ) :
    (sortByConfDesc l).filter (fun e => decide (e.conf = c)) =
      l.filter (fun e => decide (e.conf = c)) := by
  induction l with
  | nil => simp [sortByConfDesc]
  | cons e rest ih =>
    simp only [sortByConfDesc, List.foldr_cons] at ih ⊢
    rw [filter_insertDesc]
    by_cases he : e.conf = c
    · simp [List.filter_cons, he, ih]
    · simp [List.filter_cons, he, ih]

/-- C1: for every raw detection tensor and every pair of valid
thresholds, no two detections returned by post_process that share the
same class id have Intersection-over-Union greater than iou_threshold;
and the per-class greedy suppression operates on a stably sorted list:
sortByConfDesc always produces descending confidences, and candidates of
equal confidence keep their original relative order, witnessed by the
sort commuting with filtering any single confidence value. -/
theorem c1_same_class_iou_bounded (raw : List (List ℚ)) (origH origW S : ℚ)
    (nc : ℕ) (threshold iouThr : ℚ) (out : List Detection)
    (hok : post_process raw origH origW S nc threshold iouThr = .ok out) :
    List.Pairwise (fun a b => a.classId = b.classId → iou a b ≤ iouThr) out ∧
    (∀ l : List Detection, List.Pairwise (fun a b => b.conf ≤ a.conf) (sortByConfDesc l)) ∧
    (∀ (l : List Detection) (c : ℚ),
      (sortByConfDesc l).filter (fun e => decide (e.conf = c)) =
        l.filter (fun e => decide (e.conf = c))) := by
  refine ⟨?_, sortByConfDesc_sorted, sortByConfDesc_stable⟩
  rw [post_process_ok hok]
  exact nmsAll_pairwise iouThr _

def rawC1 : List (List ℚ) := [[2, 2, 2, 2, 1, 1], [2, 2, 2, 2, 1, 9/10]]

def outC1 : List Detection :=
  [{ xMin := 1, yMin := 1, xMax := 3, yMax := 3, conf := 1, classId := 0 }]

theorem c1_same_class_iou_bounded_witness :
    post_process rawC1 4 4 4 1 (1/2) (1/2) = .ok outC1 ∧
    (List.Pairwise (fun a b => a.classId = b.classId → iou a b ≤ (1/2 : ℚ)) outC1 ∧
      (∀ l : List Detection, List.Pairwise (fun a b => b.conf ≤ a.conf) (sortByConfDesc l)) ∧
      (∀ (l : List Detection) (c : ℚ),
        (sortByConfDesc l).filter (fun e => decide (e.conf = c)) =
          l.filter (fun e => decide (e.conf = c)))) := by
  have hok : post_process rawC1 4 4 4 1 (1/2) (1/2) = .ok outC1 := by
    norm_num [rawC1, outC1, post_process, shapeOk, nmsAll, classIds, keptDetections,
      rawDetections, detOfRow, bestClassAux, clamp, groupOf, sortByConfDesc, insertDesc,
      nms, nmsFuel, iou, interArea, boxArea, List.filter, List.dedup]
  exact ⟨hok, c1_same_class_iou_bounded rawC1 4 4 4 1 (1/2) (1/2) outC1 hok⟩

/-- C2: every detection returned by post_process has confidence at least
the configured threshold; a candidate confidence is objectness times the
best per-class score and candidates below the threshold are discarded. -/
theorem c2_conf_ge_threshold (raw : List (List ℚ)) (origH origW S : ℚ)
    (nc : ℕ) (threshold iouThr : ℚ) (out : List Detection)
    (hok : post_process raw origH origW S nc threshold iouThr = .ok out) :
    ∀ d ∈ out, threshold ≤ d.conf := by
  intro d hd
  rw [post_process_ok hok] at hd
  exact conf_of_mem_kept (mem_of_mem_nmsAll hd)

def rawC2 : List (List ℚ) := [[2, 2, 2, 2, 3/4, 1]]

def outC2 : List Detection :=
  [{ xMin := 1, yMin := 1, xMax := 3, yMax := 3, conf := 3/4, classId := 0 }]

theorem c2_conf_ge_threshold_witness :
    post_process rawC2 4 4 4 1 (1/4) (1/2) = .ok outC2 ∧
    ∀ d ∈ outC2, (1/4 : ℚ) ≤ d.conf := by
  have hok : post_process rawC2 4 4 4 1 (1/4) (1/2) = .ok outC2 := by
    norm_num [rawC2, outC2, post_process, shapeOk, nmsAll, classIds, keptDetections,
      rawDetections, detOfRow, bestClassAux, clamp, groupOf, sortByConfDesc, insertDesc,
      nms, nmsFuel, iou, interArea, boxArea, List.filter, List.dedup]
  exact ⟨hok, c2_conf_ge_threshold rawC2 4 4 4 1 (1/4) (1/2) outC2 hok⟩

/-- C8: post_process is deterministic and stateless; it is a pure
function of exactly its four inputs, so two calls on equal inputs return
equal detection lists and no state flows between calls. -/
theorem c8_deterministic (raw₁ raw₂ : List (List ℚ)) (origH₁ origH₂ origW₁ origW₂ S₁ S₂ : ℚ)
    (nc₁ nc₂ : ℕ) (t₁ t₂ i₁ i₂ : ℚ)
    (hraw : raw₁ = raw₂) (hH : origH₁ = origH₂) (hW : origW₁ = origW₂) (hS : S₁ = S₂)
    (hnc : nc₁ = nc₂) (ht : t₁ = t₂) (hi : i₁ = i₂) :
    post_process raw₁ origH₁ origW₁ S₁ nc₁ t₁ i₁ =
      post_process raw₂ origH₂ origW₂ S₂ nc₂ t₂ i₂ := by
  subst_vars
  rfl

def rawC8 : List (List ℚ) := [[2, 2, 2, 2, 1, 1]]

theorem c8_deterministic_witness :
    post_process rawC8 4 4 4 1 (1/2) (1/2) = post_process rawC8 4 4 4 1 (1/2) (1/2) :=
  c8_deterministic rawC8 rawC8 4 4 4 4 4 4 1 1 (1/2) (1/2) (1/2) (1/2)
    rfl rfl rfl rfl rfl rfl rfl

theorem pollLoop_spec (describe : ℕ → JobStatus) :
    ∀ (fuel i0 t0 i t : ℕ) (s : JobStatus),
      pollLoop describe fuel i0 t0 = some (i, t, s) →
      i0 ≤ i ∧ s = describe i ∧ isRunning s = false ∧
        (∀ j, i0 ≤ j → j < i → isRunning (describe j) = true) ∧
        t = t0 + 5 * (i - i0) := by
  intro fuel
  induction fuel with
  | zero =>
    intro i0 t0 i t s h
    simp [pollLoop] at h
  | succ n ih =>
    intro i0 t0 i t s h
    simp only [pollLoop] at h
    by_cases hr : isRunning (describe i0) = true
    · rw [if_pos hr] at h
      obtain ⟨h1, h2, h3, h4, h5⟩ := ih (i0 + 1) (t0 + 5) i t s h
      refine ⟨by omega, h2, h3, ?_, by omega⟩
      intro j hj1 hj2
      rcases Nat.eq_or_lt_of_le hj1 with heq | hlt
      · exact heq ▸ hr
      · exact h4 j hlt hj2
    · rw [if_neg hr] at h
      simp only [Option.some.injEq, Prod.mk.injEq] at h
      obtain ⟨rfl, rfl, rfl⟩ := h
      refine ⟨le_rfl, rfl, by simpa using hr, ?_, by omega⟩
      intro j hj1 hj2
      exact absurd hj2 (by omega)

/-- C9: for every status sequence reported by the describe API, the
polling loop keeps polling with a fixed five second sleep exactly while
the status is STARTING or INPROGRESS: when it exits at poll i, the exit
status is the first one outside that set, every earlier poll saw a
running status, and five seconds were slept per earlier poll. -/
theorem c9_pollLoop_first_terminal (describe : ℕ → JobStatus) (fuel i t : ℕ)
    (s : JobStatus) (h : pollLoop describe fuel 0 0 = some (i, t, s)) :
    s = describe i ∧ isRunning s = false ∧
      (∀ j, j < i → isRunning (describe j) = true) ∧ t = 5 * i := by
  obtain ⟨_, h2, h3, h4, h5⟩ := pollLoop_spec describe fuel 0 0 i t s h
  exact ⟨h2, h3, fun j hj => h4 j (Nat.zero_le j) hj, by omega⟩

def describeC9 : ℕ → JobStatus :=
  fun n => if n < 2 then JobStatus.INPROGRESS else JobStatus.COMPLETED

theorem c9_pollLoop_first_terminal_witness :
    pollLoop describeC9 10 0 0 = some (2, 10, JobStatus.COMPLETED) ∧
    (JobStatus.COMPLETED = describeC9 2 ∧ isRunning JobStatus.COMPLETED = false ∧
      (∀ j, j < 2 → isRunning (describeC9 j) = true) ∧ 10 = 5 * 2) :=
  ⟨by decide, c9_pollLoop_first_terminal describeC9 10 2 10 JobStatus.COMPLETED (by decide)⟩

/-- C10: in the classifier pipeline, a non-square image is replaced by a
square image of side max height width whose top-left height by width
region equals the original pixels exactly and whose remaining samples
are zero, and a square image passes through unchanged. -/
theorem c10_makeSquare_pads (img : Image) :
    (img.w ≠ img.h →
      (makeSquare img).h = max img.h img.w ∧
      (makeSquare img).w = max img.h img.w ∧
      (makeSquare img).c = img.c ∧
      (∀ y x ch, y < img.h → x < img.w → (makeSquare img).pix y x ch = img.pix y x ch) ∧
      (∀ y x ch, ¬ (y < img.h ∧ x < img.w) → (makeSquare img).pix y x ch = 0)) ∧
    (img.w = img.h → makeSquare img = img) := by
  constructor
  · intro hne
    rw [makeSquare, if_neg hne]
    refine ⟨rfl, rfl, rfl, ?_, ?_⟩
    · intro y x ch hy hx
      simp [hy, hx]
    · intro y x ch hnot
      simp only [if_neg hnot]
  · intro he
    simp [makeSquare, he]

def imgC10 : Image := { h := 1, w := 2, c := 3, pix := fun _ _ _ => 7 }

theorem c10_makeSquare_pads_witness :
    imgC10.w ≠ imgC10.h ∧
    ((makeSquare imgC10).h = max imgC10.h imgC10.w ∧
      (makeSquare imgC10).w = max imgC10.h imgC10.w ∧
      (makeSquare imgC10).c = imgC10.c ∧
      (∀ y x ch, y < imgC10.h → x < imgC10.w →
        (makeSquare imgC10).pix y x ch = imgC10.pix y x ch) ∧
      (∀ y x ch, ¬ (y < imgC10.h ∧ x < imgC10.w) → (makeSquare imgC10).pix y x ch = 0)) :=
  ⟨by decide, (c10_makeSquare_pads imgC10).1 (by decide)⟩

theorem clamp_nonneg (x hi : ℚ) : 0 ≤ clamp x 0 hi :=
  le_max_left 0 _

theorem clamp_le_hi {hi : ℚ} (h0 : 0 ≤ hi) (x : ℚ) : clamp x 0 hi ≤ hi :=
  max_le h0 (min_le_right x hi)

theorem clamp_mono {x y : ℚ} (lo hi : ℚ) (h : x ≤ y) : clamp x lo hi ≤ clamp y lo hi :=
  max_le_max le_rfl (min_le_min h le_rfl)

/-- A raw tensor row has nonnegative width and height entries; rows too
short to carry them satisfy the predicate vacuously. -/
def rowNonnegWH : List ℚ → Prop
  | _ :: _ :: w :: h :: _ => 0 ≤ w ∧ 0 ≤ h
  | _ => True

theorem detOfRow_bounds {origH origW S : ℚ} {row : List ℚ} {d : Detection}
    (hH : 0 ≤ origH) (hW : 0 ≤ origW) (hS : 0 ≤ S)
    (hnn : rowNonnegWH row) (hdet : detOfRow origH origW S row = some d) :
    0 ≤ d.xMin ∧ d.xMin ≤ d.xMax ∧ d.xMax ≤ origW ∧
      0 ≤ d.yMin ∧ d.yMin ≤ d.yMax ∧ d.yMax ≤ origH := by
  rcases row with _ | ⟨cx, _ | ⟨cy, _ | ⟨w, _ | ⟨h, _ | ⟨obj, _ | ⟨s0, rest⟩⟩⟩⟩⟩⟩ <;>
    simp only [detOfRow, Option.some.injEq, reduceCtorEq] at hdet
  obtain ⟨hw0, hh0⟩ := hnn
  subst hdet
  have hsx : 0 ≤ origW / S := div_nonneg hW hS
  have hsy : 0 ≤ origH / S := div_nonneg hH hS
  refine ⟨clamp_nonneg _ _, ?_, clamp_le_hi hW _, clamp_nonneg _ _, ?_, clamp_le_hi hH _⟩
  · exact clamp_mono 0 origW (mul_le_mul_of_nonneg_right (by linarith) hsx)
  · exact clamp_mono 0 origH (mul_le_mul_of_nonneg_right (by linarith) hsy)

theorem detOfRow_formula {origH origW S : ℚ} {row : List ℚ} {d : Detection}
    (hdet : detOfRow origH origW S row = some d) :
    ∃ cx cy w h obj s0 rest, row = cx :: cy :: w :: h :: obj :: s0 :: rest ∧
      d.xMin = clamp ((cx - w / 2) * (origW / S)) 0 origW ∧
      d.yMin = clamp ((cy - h / 2) * (origH / S)) 0 origH ∧
      d.xMax = clamp ((cx + w / 2) * (origW / S)) 0 origW ∧
      d.yMax = clamp ((cy + h / 2) * (origH / S)) 0 origH := by
  rcases row with _ | ⟨cx, _ | ⟨cy, _ | ⟨w, _ | ⟨h, _ | ⟨obj, _ | ⟨s0, rest⟩⟩⟩⟩⟩⟩ <;>
    simp only [detOfRow, Option.some.injEq, reduceCtorEq] at hdet
  subst hdet
  exact ⟨cx, cy, w, h, obj, s0, rest, rfl, rfl, rfl, rfl, rfl⟩

/-- C3 amended: every detection emitted by post_process, on a raw tensor
whose candidate widths and heights are nonnegative and with nonnegative
original dimensions and resized side, has a box clipped to the original
image bounds with 0 ≤ x_min ≤ x_max ≤ original_width and
0 ≤ y_min ≤ y_max ≤ original_height; the strict inequalities of the
original claim fail for degenerate or fully out-of-bounds candidates. -/
theorem c3_amended_boxes_clipped (raw : List (List ℚ)) (origH origW S : ℚ)
    (nc : ℕ) (threshold iouThr : ℚ) (out : List Detection)
    (hH : 0 ≤ origH) (hW : 0 ≤ origW) (hS : 0 ≤ S)
    (hwh : ∀ row ∈ raw, rowNonnegWH row)
    (hok : post_process raw origH origW S nc threshold iouThr = .ok out) :
    ∀ d ∈ out, 0 ≤ d.xMin ∧ d.xMin ≤ d.xMax ∧ d.xMax ≤ origW ∧
      0 ≤ d.yMin ∧ d.yMin ≤ d.yMax ∧ d.yMax ≤ origH := by
  intro d hd
  rw [post_process_ok hok] at hd
  obtain ⟨row, hrow, hdet⟩ := row_of_mem_kept (mem_of_mem_nmsAll hd)
  exact detOfRow_bounds hH hW hS (hwh row hrow) hdet

def rawC3 : List (List ℚ) := [[1, 1, 2, 2, 1, 1]]

def outC3 : List Detection :=
  [{ xMin := 0, yMin := 0, xMax := 2, yMax := 2, conf := 1, classId := 0 }]

theorem c3_amended_boxes_clipped_witness :
    post_process rawC3 4 4 4 1 (1/2) (1/2) = .ok outC3 ∧
    ∀ d ∈ outC3, 0 ≤ d.xMin ∧ d.xMin ≤ d.xMax ∧ d.xMax ≤ (4 : ℚ) ∧
      0 ≤ d.yMin ∧ d.yMin ≤ d.yMax ∧ d.yMax ≤ (4 : ℚ) := by
  have hok : post_process rawC3 4 4 4 1 (1/2) (1/2) = .ok outC3 := by
    norm_num [rawC3, outC3, post_process, shapeOk, nmsAll, classIds, keptDetections,
      rawDetections, detOfRow, bestClassAux, clamp, groupOf, sortByConfDesc, insertDesc,
      nms, nmsFuel, iou, interArea, boxArea, List.filter, List.dedup]
  refine ⟨hok, c3_amended_boxes_clipped rawC3 4 4 4 1 (1/2) (1/2) outC3
    (by norm_num) (by norm_num) (by norm_num) ?_ hok⟩
  intro row hrow
  rcases List.mem_singleton.1 hrow with rfl
  norm_num [rowNonnegWH]

def rawC3a : List (List ℚ) := [[0, 0, 0, 0, 1, 1]]

def detC3a : Detection :=
  { xMin := 0, yMin := 0, xMax := 0, yMax := 0, conf := 1, classId := 0 }

def rawC3b : List (List ℚ) := [[2, 2, -2, -2, 1, 1]]

def detC3b : Detection :=
  { xMin := 3, yMin := 3, xMax := 1, yMax := 1, conf := 1, classId := 0 }

/-- C3 counterexample: a zero-size candidate survives post_process with
x_min equal to x_max, refuting the strict inequality, and a candidate
with negative width and height survives with x_min greater than x_max,
so the claimed strict chain fails without further hypotheses. -/
theorem c3_boxes_counterexample :
    (post_process rawC3a 4 4 4 1 (1/2) (1/2) = .ok [detC3a] ∧
      ¬ detC3a.xMin < detC3a.xMax) ∧
    (post_process rawC3b 4 4 4 1 (1/2) (1/2) = .ok [detC3b] ∧
      ¬ detC3b.xMin ≤ detC3b.xMax) := by
  refine ⟨⟨?_, ?_⟩, ?_, ?_⟩
  · norm_num [rawC3a, detC3a, post_process, shapeOk, nmsAll, classIds, keptDetections,
      rawDetections, detOfRow, bestClassAux, clamp, groupOf, sortByConfDesc, insertDesc,
      nms, nmsFuel, iou, interArea, boxArea, List.filter, List.dedup]
  · norm_num [detC3a]
  · norm_num [rawC3b, detC3b, post_process, shapeOk, nmsAll, classIds, keptDetections,
      rawDetections, detOfRow, bestClassAux, clamp, groupOf, sortByConfDesc, insertDesc,
      nms, nmsFuel, iou, interArea, boxArea, List.filter, List.dedup]
  · norm_num [detC3b]

/-- C4: every detection returned by post_process comes from a raw tensor
row, and its corners are the center form of that row converted to
corners and scaled per axis by original dimension over resized
dimension, then clipped; with a 608 wide, 405 high original and a 640
square resize the scale factors are 608 over 640 and 405 over 640. -/
theorem c4_box_rescaling (raw : List (List ℚ)) (origH origW S : ℚ)
    (nc : ℕ) (threshold iouThr : ℚ) (out : List Detection)
    (hok : post_process raw origH origW S nc threshold iouThr = .ok out) :
    ∀ d ∈ out, ∃ cx cy w h obj s0 rest,
      (cx :: cy :: w :: h :: obj :: s0 :: rest) ∈ raw ∧
      d.xMin = clamp ((cx - w / 2) * (origW / S)) 0 origW ∧
      d.yMin = clamp ((cy - h / 2) * (origH / S)) 0 origH ∧
      d.xMax = clamp ((cx + w / 2) * (origW / S)) 0 origW ∧
      d.yMax = clamp ((cy + h / 2) * (origH / S)) 0 origH := by
  intro d hd
  rw [post_process_ok hok] at hd
  obtain ⟨row, hrow, hdet⟩ := row_of_mem_kept (mem_of_mem_nmsAll hd)
  obtain ⟨cx, cy, w, h, obj, s0, rest, hsh, h1, h2, h3, h4⟩ := detOfRow_formula hdet
  exact ⟨cx, cy, w, h, obj, s0, rest, hsh ▸ hrow, h1, h2, h3, h4⟩

def rawC4 : List (List ℚ) := [[320, 320, 64, 64, 1, 1]]

def detC4 : Detection :=
  { xMin := 1368/5, yMin := 729/4, xMax := 1672/5, yMax := 891/4, conf := 1, classId := 0 }

theorem c4_box_rescaling_witness :
    post_process rawC4 405 608 640 1 (1/4) (9/20) = .ok [detC4] ∧
    (∃ cx cy w h obj s0 rest,
      (cx :: cy :: w :: h :: obj :: s0 :: rest) ∈ rawC4 ∧
      detC4.xMin = clamp ((cx - w / 2) * ((608 : ℚ) / 640)) 0 608 ∧
      detC4.yMin = clamp ((cy - h / 2) * ((405 : ℚ) / 640)) 0 405 ∧
      detC4.xMax = clamp ((cx + w / 2) * ((608 : ℚ) / 640)) 0 608 ∧
      detC4.yMax = clamp ((cy + h / 2) * ((405 : ℚ) / 640)) 0 405) := by
  have hok : post_process rawC4 405 608 640 1 (1/4) (9/20) = .ok [detC4] := by
    norm_num [rawC4, detC4, post_process, shapeOk, nmsAll, classIds, keptDetections,
      rawDetections, detOfRow, bestClassAux, clamp, groupOf, sortByConfDesc, insertDesc,
      nms, nmsFuel, iou, interArea, boxArea, List.filter, List.dedup]
  exact ⟨hok, c4_box_rescaling rawC4 405 608 640 1 (1/4) (9/20) [detC4] hok detC4
    (List.mem_singleton.2 rfl)⟩

/-- C5: for a valid height by width by 3 image with byte samples,
pre_process returns a tensor of shape 1, 3, S, S whose values, obtained
by resizing to S by S, dividing byte values by 255, reordering to
channel-first and adding a batch dimension, all lie in the unit
interval; with classifier-style normalization each value is further
centered and scaled per channel as value minus channel mean over channel
standard deviation. -/
theorem c5_pre_process_shape_range (img : Image) (S : ℕ)
    (hh : img.h ≠ 0) (hw : img.w ≠ 0) (hc : img.c = 3)
    (hpix : ∀ y x ch, 0 ≤ img.pix y x ch ∧ img.pix y x ch ≤ 255) :
    pre_process img S false = .ok (preTensor img S false) ∧
    (preTensor img S false).n = 1 ∧ (preTensor img S false).c = 3 ∧
    (preTensor img S false).h = S ∧ (preTensor img S false).w = S ∧
    (∀ b ch y x, 0 ≤ (preTensor img S false).val b ch y x ∧
      (preTensor img S false).val b ch y x ≤ 1) ∧
    (∀ b ch y x, (preTensor img S true).val b ch y x =
      ((preTensor img S false).val b ch y x - meanOf ch) / stdOf ch) := by
  refine ⟨?_, rfl, hc, rfl, rfl, ?_, ?_⟩
  · have hv : ¬ (img.h = 0 ∨ img.w = 0 ∨ img.c ≠ 3) := by
      push_neg
      exact ⟨hh, hw, hc⟩
    simp [pre_process, hv]
  · intro b ch y x
    show 0 ≤ img.pix (y * img.h / S) (x * img.w / S) ch / 255 ∧
      img.pix (y * img.h / S) (x * img.w / S) ch / 255 ≤ 1
    have hp := hpix (y * img.h / S) (x * img.w / S) ch
    refine ⟨div_nonneg hp.1 (by norm_num), ?_⟩
    rw [div_le_one (by norm_num : (0:ℚ) < 255)]
    exact hp.2
  · intro b ch y x
    simp [preTensor, normChannel]

def imgC5 : Image := { h := 2, w := 2, c := 3, pix := fun _ _ _ => 51 }

theorem c5_pre_process_shape_range_witness :
    pre_process imgC5 4 false = .ok (preTensor imgC5 4 false) ∧
    (preTensor imgC5 4 false).n = 1 ∧ (preTensor imgC5 4 false).c = 3 ∧
    (preTensor imgC5 4 false).h = 4 ∧ (preTensor imgC5 4 false).w = 4 ∧
    (∀ b ch y x, 0 ≤ (preTensor imgC5 4 false).val b ch y x ∧
      (preTensor imgC5 4 false).val b ch y x ≤ 1) ∧
    (∀ b ch y x, (preTensor imgC5 4 true).val b ch y x =
      ((preTensor imgC5 4 false).val b ch y x - meanOf ch) / stdOf ch) :=
  c5_pre_process_shape_range imgC5 4 (by decide) (by decide) (by decide)
    (fun y x ch => by norm_num [imgC5])

/-- C6: post_process fails with InvalidInput exactly when a threshold
lies outside the unit interval or the raw shape is inconsistent with the
expected detection layout; on valid inputs where no candidate clears the
confidence threshold it returns the empty detection list, not an error,
and being a pure function the failing call mutates no caller-visible
state. -/
theorem c6_error_iff_and_empty (raw : List (List ℚ)) (origH origW S : ℚ)
    (nc : ℕ) (threshold iouThr : ℚ) :
    (post_process raw origH origW S nc threshold iouThr = .error .invalidInput ↔
      ¬ (0 ≤ threshold ∧ threshold ≤ 1) ∨ ¬ (0 ≤ iouThr ∧ iouThr ≤ 1) ∨
        ¬ shapeOk nc raw = true) ∧
    ((0 ≤ threshold ∧ threshold ≤ 1) → (0 ≤ iouThr ∧ iouThr ≤ 1) →
      shapeOk nc raw = true →
      (∀ d ∈ rawDetections origH origW S raw, d.conf < threshold) →
      post_process raw origH origW S nc threshold iouThr = .ok []) := by
  constructor
  · by_cases ht : 0 ≤ threshold ∧ threshold ≤ 1
    · by_cases hi2 : 0 ≤ iouThr ∧ iouThr ≤ 1
      · by_cases hs : shapeOk nc raw = true
        · simp [post_process, ht, hi2, hs]
        · simp [post_process, ht, hi2, hs]
      · simp [post_process, ht, hi2]
    · simp [post_process, ht]
  · intro ht hi2 hs hconf
    have hk : keptDetections threshold origH origW S raw = [] := by
      rw [keptDetections]
      refine List.filter_eq_nil_iff.2 ?_
      intro d hd
      simp only [decide_eq_true_eq]
      exact not_le.2 (hconf d hd)
    simp [post_process, ht, hi2, hs, hk, nmsAll, classIds]

def rawC6 : List (List ℚ) := [[2, 2, 2, 2, 1/10, 1]]

theorem c6_error_iff_and_empty_witness :
    (post_process rawC6 4 4 4 1 (1/4) (1/2) = .error .invalidInput ↔
      ¬ ((0:ℚ) ≤ 1/4 ∧ (1/4:ℚ) ≤ 1) ∨ ¬ ((0:ℚ) ≤ 1/2 ∧ (1/2:ℚ) ≤ 1) ∨
        ¬ shapeOk 1 rawC6 = true) ∧
    post_process rawC6 4 4 4 1 (1/4) (1/2) = .ok [] := by
  refine ⟨(c6_error_iff_and_empty rawC6 4 4 4 1 (1/4) (1/2)).1,
    (c6_error_iff_and_empty rawC6 4 4 4 1 (1/4) (1/2)).2
      (by norm_num) (by norm_num) (by simp [shapeOk, rawC6]) ?_⟩
  intro d hd
  simp only [rawC6, rawDetections, detOfRow, bestClassAux, List.filterMap,
    Option.some.injEq] at hd
  norm_num [List.mem_singleton] at hd
  rw [hd]
  norm_num

/-- C7: pre_process fails with InvalidInput exactly when the image has
zero height, zero width or a channel count other than three, and on a
well-formed height by width by 3 image it succeeds with the model-ready
tensor. -/
theorem c7_pre_process_invalid_iff (img : Image) (S : ℕ) (normalize : Bool) :
    (pre_process img S normalize = .error .invalidInput ↔
      img.h = 0 ∨ img.w = 0 ∨ img.c ≠ 3) ∧
    (img.h ≠ 0 → img.w ≠ 0 → img.c = 3 →
      pre_process img S normalize = .ok (preTensor img S normalize)) := by
  constructor
  · by_cases hc : img.h = 0 ∨ img.w = 0 ∨ img.c ≠ 3
    · simp [pre_process, hc]
    · simp [pre_process, hc]
  · intro h1 h2 h3
    have hv : ¬ (img.h = 0 ∨ img.w = 0 ∨ img.c ≠ 3) := by
      push_neg
      exact ⟨h1, h2, h3⟩
    simp [pre_process, hv]

def imgC7 : Image := { h := 2, w := 2, c := 3, pix := fun _ _ _ => 0 }

theorem c7_pre_process_invalid_iff_witness :
    (pre_process imgC7 4 false = .error .invalidInput ↔
      imgC7.h = 0 ∨ imgC7.w = 0 ∨ imgC7.c ≠ 3) ∧
    pre_process imgC7 4 false = .ok (preTensor imgC7 4 false) :=
  ⟨(c7_pre_process_invalid_iff imgC7 4 false).1,
    (c7_pre_process_invalid_iff imgC7 4 false).2 (by decide) (by decide) (by decide)⟩
